import Mathlib

/-!
A verification development for the core analysis routines of `xortool.py`,
the repeating-key XOR analysis tool.

The ciphertext is modelled as a `List Nat` of byte values and the shallow
embedding follows the source function by function:

* `offsetPositions` renders Python's `range(offset, n, key_length)`;
* `chars_at_offset` is the list of bytes inspected by
  `chars_count_at_offset(text, key_length, offset)` — the dictionary that
  function returns maps each byte value to its multiplicity in this list,
  so `(chars_at_offset ...).count c` is the dictionary entry of `c` and
  `maxCount` is `max(chars_count.values())`;
* `count_equals`, `calculate_fitnesses` (with its loop state in `sweep` /
  `calc_step`), `get_max_fitnessed_key_length`, `guess_keys`, `all_keys`
  and `guess_probable_keys` mirror the functions of the same names.

Floating point fitness values are modelled with exact real arithmetic;
`die(...)` is modelled by `Except.error`.
-/

namespace Xortool

/-- Python `range(offset, n, key_length)`: the positions
`offset, offset + key_length, offset + 2*key_length, …` that are `< n`.
The element count `(n - offset + key_length - 1) / key_length` is the
ceiling of `(n - offset) / key_length`. -/
def offsetPositions (n key_length offset : Nat) : List Nat :=
  (List.range ((n - offset + key_length - 1) / key_length)).map fun i => offset + i * key_length

/-- The bytes visited by `chars_count_at_offset(text, key_length, offset)`:
`text[pos]` for `pos in range(offset, len(text), key_length)`.  The dict the
Python function builds maps each byte to its number of occurrences in this
list. -/
def chars_at_offset (text : List Nat) (key_length offset : Nat) : List Nat :=
  (offsetPositions text.length key_length offset).map fun pos => text.getD pos 0

/-- `max(chars_count.values())`: the largest multiplicity occurring in the
byte histogram of `l` (distinct keys are `l.dedup`, the value of key `c` is
`l.count c`).  Python's `max` faults on an empty dict; here the empty case
yields `0`. -/
def maxCount (l : List Nat) : Nat :=
  (l.dedup.map fun c => l.count c).foldr max 0

/-- `count_equals(text, key_length)` from the source: `0` when
`key_length >= len(text)`, otherwise the sum over all offsets of
`max(chars_count.values()) - 1`. -/
def count_equals (text : List Nat) (key_length : Nat) : Nat :=
  if text.length ≤ key_length then 0
  else ((List.range key_length).map fun offset =>
    maxCount (chars_at_offset text key_length offset) - 1).sum

/-- The normalized fitness computed inside the loop of
`calculate_fitnesses`: `float(count_equals(text, L)) / (64 + L ** 0.5)`. -/
noncomputable def fitnessAt (text : List Nat) (key_length : Nat) : ℝ :=
  (count_equals text key_length : ℝ) / (64 + (key_length : ℝ) ^ ((1 : ℝ) / 2))

/-- One iteration of the loop of `calculate_fitnesses`.  The state is
`(pprev, prev, fitnesses)`; the body computes the fitness of the current
`key_length`, appends `(key_length - 1, prev)` when `pprev < prev` and
`prev > fitness` (a local maximum, reported one step late), and shifts the
window. -/
noncomputable def calc_step (text : List Nat) (st : ℝ × ℝ × List (Nat × ℝ))
    (key_length : Nat) : ℝ × ℝ × List (Nat × ℝ) :=
  (st.2.1, fitnessAt text key_length,
    if st.1 < st.2.1 ∧ st.2.1 > fitnessAt text key_length
    then st.2.2 ++ [(key_length - 1, st.2.1)] else st.2.2)

/-- The loop of `calculate_fitnesses` run for `key_length in range(1, m+1)`,
started from `pprev = 0`, `prev = 0`, `fitnesses = []`. -/
noncomputable def sweep (text : List Nat) : Nat → ℝ × ℝ × List (Nat × ℝ)
  | 0 => (0, 0, [])
  | m + 1 => calc_step text (sweep text m) (m + 1)

/-- `calculate_fitnesses(text)` with `PARAMETERS["max_key_length"] = m`:
the list of reported local maxima. -/
noncomputable def calculate_fitnesses (text : List Nat) (max_key_length : Nat) :
    List (Nat × ℝ) :=
  (sweep text max_key_length).2.2

/-- One iteration of the loop of `get_max_fitnessed_key_length`: the state is
`(max_fitness, max_fitnessed_key_length)` and an entry replaces it only when
its fitness is strictly greater. -/
noncomputable def gml_step (acc : ℝ × Nat) (p : Nat × ℝ) : ℝ × Nat :=
  if acc.1 < p.2 then (p.2, p.1) else acc

/-- `get_max_fitnessed_key_length(fitnesses)` from the source: start from
`max_fitness = 0`, `max_fitnessed_key_length = 0` and keep the key length of
the first strictly largest fitness seen. -/
noncomputable def get_max_fitnessed_key_length (fitnesses : List (Nat × ℝ)) : Nat :=
  (fitnesses.foldl gml_step (0, 0)).2

/-- The candidate key bytes collected for one `offset` inside `guess_keys`:
every dict key whose count is `>= max_count`, XORed with the most frequent
char.  (Python iterates the dict's keys; `dedup` lists the same distinct
bytes.) -/
def key_possible_bytes_at (text : List Nat) (key_length most_char offset : Nat) :
    List Nat :=
  ((chars_at_offset text key_length offset).dedup.filter fun c =>
    maxCount (chars_at_offset text key_length offset) ≤
      (chars_at_offset text key_length offset).count c).map fun c => c ^^^ most_char

/-- The recursion of `all_keys` over the still-unused suffix of
`key_possible_bytes` (Python indexes with `offset`; dropping the first
`offset` entries is the same traversal). -/
def all_keys_from : List (List Nat) → List Nat → List (List Nat)
  | [], key_part => [key_part]
  | cs :: rest, key_part => (cs.map fun c => all_keys_from rest (key_part ++ [c])).flatten

/-- `all_keys(key_possible_bytes, key_part, offset)` from the source:
produce every combination of possible key chars from position `offset` on. -/
def all_keys (key_possible_bytes : List (List Nat)) (key_part : List Nat)
    (offset : Nat) : List (List Nat) :=
  all_keys_from (key_possible_bytes.drop offset) key_part

/-- `guess_keys(text)` with `PARAMETERS["known_key_length"] = key_length` and
`PARAMETERS["most_frequent_char"] = most_char`. -/
def guess_keys (text : List Nat) (key_length most_char : Nat) : List (List Nat) :=
  all_keys ((List.range key_length).map
    (key_possible_bytes_at text key_length most_char)) [] 0

/-- `guess_probable_keys(text)`: `die(...)` when no most frequent char is
set, otherwise the keys from `guess_keys`. -/
def guess_probable_keys (text : List Nat) (key_length : Nat)
    (most_frequent_char : Option Nat) : Except String (List (List Nat)) :=
  match most_frequent_char with
  | none => Except.error "Most possible char is needed to guess the key!"
  | some c => Except.ok (guess_keys text key_length c)

/-- The residue class of the ciphertext at an offset, as the specification
words it: the bytes at the positions of `C` congruent to `offset` modulo
`L`.  (Claim-side rendering, to be compared with `chars_at_offset`.) -/
def residueBytes (C : List Nat) (L offset : Nat) : List Nat :=
  ((List.range C.length).filter fun i => i % L = offset).map fun i => C.getD i 0

/-- The maximum count in the byte histogram of a residue class, as the
specification words it.  (Claim-side rendering.) -/
def histMax (C : List Nat) (L offset : Nat) : Nat :=
  (residueBytes C L offset).toFinset.sup fun c => (residueBytes C L offset).count c

/-! ### Positions visited at one offset -/

lemma lt_ceil_div {L : Nat} (hL : 0 < L) (m i : Nat) :
    i < (m + L - 1) / L ↔ i * L < m := by
  rw [Nat.lt_iff_add_one_le, Nat.le_div_iff_mul_le hL, Nat.succ_mul]
  omega

lemma mem_offsetPositions {n L offset pos : Nat} (hL : 0 < L) :
    pos ∈ offsetPositions n L offset ↔
      offset ≤ pos ∧ pos < n ∧ (pos - offset) % L = 0 := by
  simp only [offsetPositions, List.mem_map, List.mem_range]
  constructor
  · rintro ⟨i, hi, rfl⟩
    rw [lt_ceil_div hL] at hi
    refine ⟨Nat.le_add_right _ _, by omega, ?_⟩
    simp [Nat.add_sub_cancel_left, Nat.mul_mod_left]
  · rintro ⟨h1, h2, h3⟩
    refine ⟨(pos - offset) / L, ?_, ?_⟩
    · rw [lt_ceil_div hL]
      have := Nat.div_mul_cancel (Nat.dvd_of_mod_eq_zero h3)
      omega
    · have := Nat.div_mul_cancel (Nat.dvd_of_mod_eq_zero h3)
      omega

lemma length_chars_at_offset (text : List Nat) (L offset : Nat) :
    (chars_at_offset text L offset).length = (text.length - offset + L - 1) / L := by
  simp [chars_at_offset, offsetPositions]

lemma offsetPositions_nodup (n L offset : Nat) (hL : 0 < L) :
    (offsetPositions n L offset).Nodup := by
  refine List.Nodup.map ?_ (List.nodup_range _)
  intro i j h
  simp only at h
  exact Nat.eq_of_mul_eq_mul_right hL (Nat.add_left_cancel h)

/-- The arithmetic-progression rendering of one residue class visits exactly
the positions congruent to `offset` modulo `L`. -/
lemma offsetPositions_perm {n L offset : Nat} (hL : 0 < L) (ho : offset < L) :
    (offsetPositions n L offset).Perm
      ((List.range n).filter fun pos => pos % L = offset) := by
  rw [List.perm_ext_iff_of_nodup (offsetPositions_nodup n L offset hL)
    ((List.nodup_range n).filter _)]
  intro pos
  rw [mem_offsetPositions hL, List.mem_filter, List.mem_range]
  simp only [decide_eq_true_eq]
  constructor
  · rintro ⟨h1, h2, h3⟩
    refine ⟨h2, ?_⟩
    obtain ⟨k, hk⟩ := Nat.dvd_of_mod_eq_zero h3
    rw [Nat.mul_comm] at hk
    have : pos = offset + k * L := by omega
    subst this
    rw [Nat.add_mul_mod_self_right]
    exact Nat.mod_eq_of_lt ho
  · rintro ⟨h1, h2⟩
    have hle : offset ≤ pos := h2 ▸ Nat.mod_le pos L
    refine ⟨hle, h1, ?_⟩
    have hdm := Nat.div_add_mod pos L
    have : pos - offset = L * (pos / L) := by omega
    rw [this]
    exact Nat.mul_mod_right _ _

lemma chars_at_offset_perm (text : List Nat) {L offset : Nat} (hL : 0 < L)
    (ho : offset < L) :
    (chars_at_offset text L offset).Perm (residueBytes text L offset) :=
  (offsetPositions_perm hL ho).map _

/-! ### The histogram maximum -/

lemma le_foldr_max (xs : List Nat) (x : Nat) (hx : x ∈ xs) : x ≤ xs.foldr max 0 := by
  induction xs with
  | nil => cases hx
  | cons y ys ih =>
    rcases List.mem_cons.1 hx with rfl | h
    · exact le_max_left _ _
    · exact le_trans (ih h) (le_max_right _ _)

lemma foldr_max_mem (xs : List Nat) (hx : xs ≠ []) : xs.foldr max 0 ∈ xs := by
  induction xs with
  | nil => exact absurd rfl hx
  | cons y ys ih =>
    rcases eq_or_ne ys [] with rfl | h
    · simp
    · rcases le_total y (ys.foldr max 0) with hle | hle
      · rw [List.foldr_cons, max_eq_right hle]
        exact List.mem_cons_of_mem _ (ih h)
      · rw [List.foldr_cons, max_eq_left hle]
        exact List.mem_cons_self _ _

lemma count_le_maxCount (l : List Nat) (c : Nat) : l.count c ≤ maxCount l := by
  rcases eq_or_ne (l.count c) 0 with h | h
  · simp [h]
  · have hc : c ∈ l := by
      rcases List.count_pos_iff.1 (Nat.pos_of_ne_zero h) with h'
      exact h'
    exact le_foldr_max _ _ (List.mem_map.2 ⟨c, List.mem_dedup.2 hc, rfl⟩)

lemma maxCount_attained (l : List Nat) (hl : l ≠ []) :
    ∃ c ∈ l, l.count c = maxCount l := by
  have hd : l.dedup ≠ [] := fun h => hl ((List.dedup_eq_nil l).1 h)
  have hmem : maxCount l ∈ l.dedup.map fun c => l.count c :=
    foldr_max_mem _ (by simpa using hd)
  obtain ⟨c, hc, hcc⟩ := List.mem_map.1 hmem
  exact ⟨c, List.mem_dedup.1 hc, hcc⟩

lemma maxCount_eq_sup (l : List Nat) :
    maxCount l = l.toFinset.sup fun c => l.count c := by
  apply le_antisymm
  · rcases eq_or_ne l [] with rfl | hl
    · simp [maxCount]
    · obtain ⟨c, hc, hcc⟩ := maxCount_attained l hl
      rw [← hcc]
      exact @Finset.le_sup ℕ ℕ _ _ l.toFinset (fun b => l.count b) c
        (List.mem_toFinset.2 hc)
  · exact Finset.sup_le fun c _ => count_le_maxCount l c

/-- Through the permutation with the claim-side residue class, the code's
`max(chars_count.values())` is the claim's histogram maximum. -/
lemma maxCount_eq_histMax (text : List Nat) {L offset : Nat} (hL : 0 < L)
    (ho : offset < L) :
    maxCount (chars_at_offset text L offset) = histMax text L offset := by
  have hperm := chars_at_offset_perm text hL ho
  rw [maxCount_eq_sup, histMax]
  have hfin : (chars_at_offset text L offset).toFinset = (residueBytes text L offset).toFinset := by
    ext a
    simp [List.mem_toFinset, hperm.mem_iff]
  rw [hfin]
  exact Finset.sup_congr rfl fun c _ => hperm.count_eq c

/-! ### The fitness sweep -/

lemma count_equals_zero (text : List Nat) : count_equals text 0 = 0 := by
  unfold count_equals
  split <;> simp

lemma fitnessAt_nonneg (text : List Nat) (L : Nat) : 0 ≤ fitnessAt text L := by
  unfold fitnessAt
  have h1 : (0 : ℝ) ≤ (L : ℝ) ^ ((1 : ℝ) / 2) := Real.rpow_nonneg (Nat.cast_nonneg L) _
  have h2 : (0 : ℝ) ≤ (count_equals text L : ℝ) := Nat.cast_nonneg _
  positivity

lemma fitnessAt_zero (text : List Nat) : fitnessAt text 0 = 0 := by
  unfold fitnessAt
  rw [count_equals_zero]
  simp

lemma sweep_state (text : List Nat) (m : Nat) :
    (sweep text m).1 = fitnessAt text (m - 1) ∧ (sweep text m).2.1 = fitnessAt text m := by
  induction m with
  | zero => simp [sweep, fitnessAt_zero]
  | succ m ih => simp [sweep, calc_step, ih.2]

/-- Membership in the FitnessTable produced by the sweep up to `m`:
`(j, f)` is reported exactly when `1 ≤ j < m`, the fitness at `j` strictly
exceeds the fitness at `j - 1` and at `j + 1`, and `f` is the fitness at
`j` (the fitness "before the sweep", `fitnessAt text 0`, is `0`). -/
lemma sweep_table_mem (text : List Nat) (m : Nat) (j : Nat) (f : ℝ) :
    (j, f) ∈ (sweep text m).2.2 ↔
      1 ≤ j ∧ j + 1 ≤ m ∧ fitnessAt text (j - 1) < fitnessAt text j ∧
        fitnessAt text (j + 1) < fitnessAt text j ∧ f = fitnessAt text j := by
  induction m with
  | zero => simp [sweep]
  | succ m ih =>
    have hst := sweep_state text m
    show (j, f) ∈ (calc_step text (sweep text m) (m + 1)).2.2 ↔ _
    unfold calc_step
    rw [hst.1, hst.2]
    by_cases hcond : fitnessAt text (m - 1) < fitnessAt text m ∧
        fitnessAt text m > fitnessAt text (m + 1)
    · rw [if_pos hcond]
      simp only [List.mem_append, List.mem_singleton, Prod.mk.injEq, ih]
      constructor
      · rintro (⟨h1, h2, h3, h4, h5⟩ | ⟨hj, hf⟩)
        · exact ⟨h1, by omega, h3, h4, h5⟩
        · have hm : 1 ≤ m := by
            rcases Nat.eq_zero_or_pos m with rfl | hm
            · exact absurd hcond.1 (by simp [fitnessAt_zero])
            · exact hm
          have hjm : j = m := by omega
          subst hjm
          exact ⟨hm, by omega, hcond.1, hcond.2, hf⟩
      · rintro ⟨h1, h2, h3, h4, h5⟩
        rcases Nat.lt_or_ge j m with hj | hj
        · exact Or.inl ⟨h1, by omega, h3, h4, h5⟩
        · have : j = m := by omega
          subst this
          exact Or.inr ⟨by omega, h5⟩
    · rw [if_neg hcond]
      rw [ih]
      constructor
      · rintro ⟨h1, h2, h3, h4, h5⟩
        exact ⟨h1, by omega, h3, h4, h5⟩
      · rintro ⟨h1, h2, h3, h4, h5⟩
        rcases Nat.lt_or_ge j m with hj | hj
        · exact ⟨h1, by omega, h3, h4, h5⟩
        · have : j = m := by omega
          subst this
          exact absurd ⟨h3, h4⟩ hcond

lemma calculate_fitnesses_mem (text : List Nat) (m : Nat) (j : Nat) (f : ℝ) :
    (j, f) ∈ calculate_fitnesses text m ↔
      1 ≤ j ∧ j + 1 ≤ m ∧ fitnessAt text (j - 1) < fitnessAt text j ∧
        fitnessAt text (j + 1) < fitnessAt text j ∧ f = fitnessAt text j :=
  sweep_table_mem text m j f

/-- Every fitness value stored in the table is strictly positive. -/
lemma table_pos (text : List Nat) (m : Nat) {j : Nat} {f : ℝ}
    (h : (j, f) ∈ calculate_fitnesses text m) : 0 < f := by
  rw [calculate_fitnesses_mem] at h
  obtain ⟨-, -, h3, -, rfl⟩ := h
  exact lt_of_le_of_lt (fitnessAt_nonneg text (j - 1)) h3

/-- The table lists its key lengths in strictly increasing order. -/
lemma table_pairwise (text : List Nat) (m : Nat) :
    (calculate_fitnesses text m).Pairwise fun a b => a.1 < b.1 := by
  show ((sweep text m).2.2).Pairwise _
  induction m with
  | zero => simp [sweep]
  | succ m ih =>
    show ((calc_step text (sweep text m) (m + 1)).2.2).Pairwise _
    unfold calc_step
    split
    · rw [List.pairwise_append]
      refine ⟨ih, List.pairwise_singleton _ _, ?_⟩
      rintro ⟨j, f⟩ ha b hb
      rw [List.mem_singleton] at hb
      subst hb
      have := (sweep_table_mem text m j f).1 ha
      simpa using by omega
    · exact ih

/-! ### The maximum-fitness selection -/

lemma gml_fold_keep (l : List (Nat × ℝ)) :
    ∀ acc : ℝ × Nat, (∀ p ∈ l, p.2 ≤ acc.1) → l.foldl gml_step acc = acc := by
  induction l with
  | nil => intro acc _; rfl
  | cons p t ih =>
    intro acc hacc
    have hp : ¬ acc.1 < p.2 := not_lt.2 (hacc p (List.mem_cons_self _ _))
    show t.foldl gml_step (gml_step acc p) = acc
    rw [gml_step, if_neg hp]
    exact ih acc fun q hq => hacc q (List.mem_cons_of_mem _ hq)

/-- Running the fold against an accumulator strictly below the maximal
fitness of the list returns that maximal fitness together with the key
length of its first occurrence (hence, for a table sorted by key length,
the smallest tying key length). -/
lemma gml_fold_max (l : List (Nat × ℝ)) :
    ∀ (acc : ℝ × Nat) (q : Nat × ℝ), q ∈ l → acc.1 < q.2 → (∀ p ∈ l, p.2 ≤ q.2) →
      ∃ r ∈ l, l.foldl gml_step acc = (q.2, r.1) ∧ r.2 = q.2 ∧
        ((l.Pairwise fun a b => a.1 < b.1) → ∀ p ∈ l, p.2 = q.2 → r.1 ≤ p.1) := by
  induction l with
  | nil => intro acc q hq; cases hq
  | cons p t ih =>
    intro acc q hq hlt hmax
    have hp2 : p.2 ≤ q.2 := hmax p (List.mem_cons_self _ _)
    show ∃ r ∈ p :: t, t.foldl gml_step (gml_step acc p) = (q.2, r.1) ∧ _
    by_cases hstep : acc.1 < p.2
    · rw [gml_step, if_pos hstep]
      rcases eq_or_lt_of_le hp2 with heq | hlt2
      · -- the head already attains the maximum; the fold never updates again
        have hkeep : t.foldl gml_step (p.2, p.1) = (p.2, p.1) :=
          gml_fold_keep t (p.2, p.1) fun r hr => heq ▸ hmax r (List.mem_cons_of_mem _ hr)
        refine ⟨p, List.mem_cons_self _ _, by rw [hkeep, heq], heq, ?_⟩
        intro hpw r hr _
        rcases List.mem_cons.1 hr with rfl | hr
        · exact le_refl _
        · exact le_of_lt ((List.pairwise_cons.1 hpw).1 r hr)
      · -- the head is strictly below the maximum, which lives in the tail
        have hqt : q ∈ t := by
          rcases List.mem_cons.1 hq with rfl | h
          · exact absurd hlt2 (lt_irrefl _)
          · exact h
        obtain ⟨r, hr, hfold, hr2, hties⟩ := ih (p.2, p.1) q hqt hlt2
            fun s hs => hmax s (List.mem_cons_of_mem _ hs)
        refine ⟨r, List.mem_cons_of_mem _ hr, hfold, hr2, ?_⟩
        intro hpw s hs hs2
        rcases List.mem_cons.1 hs with rfl | hs
        · exact absurd hs2 (ne_of_lt hlt2)
        · exact hties (List.pairwise_cons.1 hpw).2 s hs hs2
    · rw [gml_step, if_neg hstep]
      have hqt : q ∈ t := by
        rcases List.mem_cons.1 hq with rfl | h
        · exact absurd hlt hstep
        · exact h
      obtain ⟨r, hr, hfold, hr2, hties⟩ := ih acc q hqt hlt
          fun s hs => hmax s (List.mem_cons_of_mem _ hs)
      refine ⟨r, List.mem_cons_of_mem _ hr, hfold, hr2, ?_⟩
      intro hpw s hs hs2
      rcases List.mem_cons.1 hs with rfl | hs
      · exact absurd (hs2 ▸ hlt) (not_lt.2 (le_of_not_lt hstep))
      · exact hties (List.pairwise_cons.1 hpw).2 s hs hs2

/-- Every nonempty list of table entries has an entry of maximal fitness. -/
lemma exists_max_entry (l : List (Nat × ℝ)) (hl : l ≠ []) :
    ∃ q ∈ l, ∀ p ∈ l, p.2 ≤ q.2 := by
  induction l with
  | nil => exact absurd rfl hl
  | cons p t ih =>
    rcases eq_or_ne t [] with rfl | ht
    · exact ⟨p, List.mem_cons_self _ _, by simp⟩
    · obtain ⟨q, hq, hmax⟩ := ih ht
      rcases le_total p.2 q.2 with hle | hle
      · refine ⟨q, List.mem_cons_of_mem _ hq, ?_⟩
        intro s hs
        rcases List.mem_cons.1 hs with rfl | hs
        · exact hle
        · exact hmax s hs
      · refine ⟨p, List.mem_cons_self _ _, ?_⟩
        intro s hs
        rcases List.mem_cons.1 hs with rfl | hs
        · exact le_refl _
        · exact le_trans (hmax s hs) hle

/-! ### Key expansion -/

/-- The recursion of `all_keys_from` satisfies the index-based recurrence of
the Python `all_keys`. -/
lemma all_keys_eq (key_possible_bytes : List (List Nat)) (key_part : List Nat)
    (offset : Nat) :
    all_keys key_possible_bytes key_part offset =
      if key_possible_bytes.length ≤ offset then [key_part]
      else ((key_possible_bytes.getD offset []).map fun c =>
        all_keys key_possible_bytes (key_part ++ [c]) (offset + 1)).flatten := by
  unfold all_keys
  split
  · rw [List.drop_eq_nil_of_le (by assumption)]
    rfl
  · have hlt : offset < key_possible_bytes.length := by omega
    rw [List.drop_eq_getElem_cons hlt, all_keys_from,
      List.getD_eq_getElem key_possible_bytes [] hlt]

lemma all_keys_from_length (key_possible_bytes : List (List Nat)) :
    ∀ key_part, (all_keys_from key_possible_bytes key_part).length =
      (key_possible_bytes.map List.length).prod := by
  induction key_possible_bytes with
  | nil => intro key_part; rfl
  | cons cs rest ih =>
    intro key_part
    rw [all_keys_from, List.length_flatten, List.map_map]
    have hconst : ∀ c ∈ cs, ((List.length ∘ fun c =>
        all_keys_from rest (key_part ++ [c])) c) = (rest.map List.length).prod := by
      intro c _
      exact ih (key_part ++ [c])
    rw [List.map_congr_left hconst, List.map_const', List.sum_replicate,
      List.map_cons, List.prod_cons, smul_eq_mul]

lemma all_keys_from_mem_length (key_possible_bytes : List (List Nat)) :
    ∀ key_part k, k ∈ all_keys_from key_possible_bytes key_part →
      k.length = key_part.length + key_possible_bytes.length := by
  induction key_possible_bytes with
  | nil =>
    intro key_part k hk
    rw [all_keys_from, List.mem_singleton] at hk
    simp [hk]
  | cons cs rest ih =>
    intro key_part k hk
    rw [all_keys_from, List.mem_flatten] at hk
    obtain ⟨l, hl, hkl⟩ := hk
    obtain ⟨c, _, rfl⟩ := List.mem_map.1 hl
    have := ih (key_part ++ [c]) k hkl
    simp only [List.length_append, List.length_cons, List.length_nil] at this ⊢
    omega

/-! ### Counting positions per offset -/

/-- `(m + L - 1) / L` is the integer ceiling of `m / L`. -/
lemma nat_ceil_div (m L : Nat) (hL : 0 < L) :
    (((m + L - 1) / L : Nat) : ℤ) = Int.ceil ((m : ℚ) / L) := by
  have hq : (0 : ℚ) < (L : ℚ) := by exact_mod_cast hL
  have hdm := Nat.div_add_mod (m + L - 1) L
  have hmod : (m + L - 1) % L < L := Nat.mod_lt _ hL
  have h1 : m ≤ L * ((m + L - 1) / L) := by omega
  have h2 : L * ((m + L - 1) / L) < m + L := by omega
  have h1q : (m : ℚ) ≤ (L : ℚ) * (((m + L - 1) / L : Nat) : ℚ) := by exact_mod_cast h1
  have h2q : (L : ℚ) * (((m + L - 1) / L : Nat) : ℚ) < (m : ℚ) + L := by exact_mod_cast h2
  symm
  rw [Int.ceil_eq_iff]
  constructor
  · rw [lt_div_iff₀ hq, Int.cast_natCast]
    nlinarith
  · rw [div_le_iff₀ hq, Int.cast_natCast]
    nlinarith

/-- The per-offset position count is the ceiling `⌈(n - offset) / L⌉`
(computed in exact rational arithmetic; for `offset < L` this is also
correct when `offset` exceeds `n`, where the class is empty). -/
lemma length_offsetPositions_ceil (n L offset : Nat) (hL : 0 < L) (ho : offset < L) :
    ((offsetPositions n L offset).length : ℤ) =
      Int.ceil (((n : ℚ) - offset) / L) := by
  have hlen : (offsetPositions n L offset).length = (n - offset + L - 1) / L := by
    simp [offsetPositions]
  rw [hlen]
  rcases Nat.le_total offset n with hno | hon
  · rw [nat_ceil_div (n - offset) L hL]
    congr 1
    congr 1
    push_cast [hno]
    ring
  · have hzero : (n - offset + L - 1) / L = 0 := by
      have : n - offset = 0 := by omega
      rw [this]
      exact Nat.div_eq_of_lt (by omega)
    rw [hzero]
    symm
    have hq : (0 : ℚ) < (L : ℚ) := by exact_mod_cast hL
    have hoq : (offset : ℚ) < L := by exact_mod_cast ho
    have hnq : (0 : ℚ) ≤ (n : ℚ) := Nat.cast_nonneg n
    have honq : (n : ℚ) ≤ offset := by exact_mod_cast hon
    rw [Int.ceil_eq_iff]
    constructor
    · rw [lt_div_iff₀ hq]
      push_cast
      nlinarith
    · rw [div_le_iff₀ hq]
      push_cast
      nlinarith

/-- The residue classes modulo `L` partition `range n`. -/
lemma sum_filter_mod (n L : Nat) (hL : 0 < L) :
    ∑ o ∈ Finset.range L,
      ((List.range n).filter fun pos => pos % L = o).length = n := by
  induction n with
  | zero => simp
  | succ n ih =>
    have hsplit : ∀ o, ((List.range (n + 1)).filter fun pos => pos % L = o).length
        = ((List.range n).filter fun pos => pos % L = o).length
          + if n % L = o then 1 else 0 := by
      intro o
      rw [List.range_succ, List.filter_append, List.length_append]
      congr 1
      by_cases h : n % L = o <;> simp [h]
    simp only [hsplit]
    rw [Finset.sum_add_distrib, ih]
    have hone : ∑ o ∈ Finset.range L, (if n % L = o then 1 else 0) = 1 := by
      rw [Finset.sum_ite_eq (Finset.range L) (n % L) fun _ => 1]
      simp [Nat.mod_lt n hL]
    omega

lemma sum_list_range (f : Nat → Nat) (k : Nat) :
    ((List.range k).map f).sum = ∑ i ∈ Finset.range k, f i := by
  induction k with
  | zero => simp
  | succ k ih => rw [List.range_succ, List.map_append, List.sum_append,
      Finset.sum_range_succ, ih, List.map_singleton, List.sum_singleton]

/-- Summed over all offsets, the residue classes cover the whole ciphertext. -/
lemma sum_length_chars_at_offset (text : List Nat) (L : Nat) (hL : 0 < L) :
    ∑ o ∈ Finset.range L, (chars_at_offset text L o).length = text.length := by
  have hterm : ∀ o ∈ Finset.range L, (chars_at_offset text L o).length
      = ((List.range text.length).filter fun pos => pos % L = o).length := by
    intro o ho
    have := (chars_at_offset_perm text hL (Finset.mem_range.1 ho)).length_eq
    rw [this, residueBytes, List.length_map]
  rw [Finset.sum_congr rfl hterm]
  exact sum_filter_mod text.length L hL

/-- Sum of the histogram counts of a list over its distinct byte values. -/
lemma sum_count_toFinset (l : List Nat) :
    ∑ c ∈ l.toFinset, l.count c = l.length := by
  have := Multiset.toFinset_sum_count_eq (l : Multiset Nat)
  simp only [Multiset.coe_count, Multiset.coe_card] at this
  exact this

/-- Membership in one offset's candidate set of `guess_keys`: exactly the
bytes of maximal count in the residue class, XORed with the most frequent
char. -/
lemma mem_key_possible_bytes_at (text : List Nat) (L most_char offset b : Nat) :
    b ∈ key_possible_bytes_at text L most_char offset ↔
      ∃ c ∈ chars_at_offset text L offset,
        (∀ c', (chars_at_offset text L offset).count c' ≤
          (chars_at_offset text L offset).count c) ∧ b = c ^^^ most_char := by
  unfold key_possible_bytes_at
  rw [List.mem_map]
  constructor
  · rintro ⟨c, hc, rfl⟩
    rw [List.mem_filter] at hc
    obtain ⟨hcd, hcnt⟩ := hc
    rw [decide_eq_true_eq] at hcnt
    have hceq : (chars_at_offset text L offset).count c
        = maxCount (chars_at_offset text L offset) :=
      le_antisymm (count_le_maxCount _ _) hcnt
    exact ⟨c, List.mem_dedup.1 hcd, fun c' => hceq ▸ count_le_maxCount _ _, rfl⟩
  · rintro ⟨c, hc, hmax, rfl⟩
    refine ⟨c, ?_, rfl⟩
    rw [List.mem_filter, decide_eq_true_eq]
    refine ⟨List.mem_dedup.2 hc, ?_⟩
    obtain ⟨c₀, _, hc₀⟩ := maxCount_attained _ (List.ne_nil_of_mem hc)
    exact hc₀ ▸ hmax c₀

/-! ### Concrete evaluations used by witnesses and counterexamples -/

lemma fitnessAt_single (b : Nat) (k : Nat) : fitnessAt [b] k = 0 := by
  have hc : count_equals [b] k = 0 := by
    unfold count_equals
    rcases Nat.eq_zero_or_pos k with rfl | hk
    · split <;> simp
    · rw [if_pos (by simpa using hk)]
  rw [fitnessAt, hc]
  simp

/-- On a one-byte ciphertext every fitness vanishes, so the sweep reports
nothing. -/
lemma calculate_fitnesses_single (b : Nat) (m : Nat) :
    calculate_fitnesses [b] m = [] := by
  show (sweep [b] m).2.2 = []
  have h : ∀ k, sweep [b] k = (0, 0, []) := by
    intro k
    induction k with
    | zero => rfl
    | succ k ih =>
      show calc_step [b] (sweep [b] k) (k + 1) = _
      rw [ih]
      unfold calc_step
      rw [fitnessAt_single]
      simp
  rw [h m]

lemma count_equals_00_1 : count_equals [0, 0] 1 = 1 := by decide

lemma count_equals_00_2 : count_equals [0, 0] 2 = 0 := by decide

lemma fitnessAt_00_1 : fitnessAt [0, 0] 1 = 1 / 65 := by
  rw [fitnessAt, count_equals_00_1]
  rw [Nat.cast_one, Real.one_rpow]
  norm_num

lemma fitnessAt_00_2 : fitnessAt [0, 0] 2 = 0 := by
  rw [fitnessAt, count_equals_00_2]
  simp

/-- On the two-byte ciphertext `[0, 0]` with `max_key_length = 2` the sweep
reports the very first candidate length `L = 1`. -/
lemma calculate_fitnesses_00 : calculate_fitnesses [0, 0] 2 = [(1, 1 / 65)] := by
  show (calc_step [0, 0] (calc_step [0, 0] (0, 0, []) 1) 2).2.2 = _
  unfold calc_step
  rw [fitnessAt_00_1, fitnessAt_00_2]
  norm_num

/-! ### The claims -/

/-- Claim C1.  On a single-byte ciphertext the estimator reports an empty
FitnessTable and best length `0` (this half of the claim holds), but key
generation run with the resulting key length `0` does *not* fail: it
returns the one empty key, a key of length `0`, for any supplied most
frequent char — contradicting the requirement that a best length of `0` be
treated as fatal. -/
theorem claim_C1_zero_length_key (b m most_char : Nat) :
    calculate_fitnesses [b] m = [] ∧
    get_max_fitnessed_key_length (calculate_fitnesses [b] m) = 0 ∧
    guess_keys [b] 0 most_char = [[]] := by
  refine ⟨calculate_fitnesses_single b m, ?_, rfl⟩
  rw [calculate_fitnesses_single]
  rfl

/-- Claim C2, counterexample.  On the ciphertext `[0, 0]` with
`max_key_length = 2` the very first candidate length `L = 1` *is* reported
in the FitnessTable (because `pprev` starts at `0` and the fitness at `1`
is positive), contradicting the claim that `L = 1` is never reported. -/
theorem claim_C2_counterexample :
    ((1 : Nat), (1 : ℝ) / 65) ∈ calculate_fitnesses [0, 0] 2 := by
  rw [calculate_fitnesses_00]
  exact List.mem_singleton.2 rfl

/-- Claim C2, amended.  A pair `(j, f)` appears in the FitnessTable exactly
when `1 ≤ j < max_key_length`, the fitness at `j` strictly exceeds both the
fitness at `j - 1` and the fitness at `j + 1`, and `f` is the fitness at
`j` — where the fitness compared against for `j = 1` is the initial
accumulator value `0 = fitnessAt text 0`.  In particular the last candidate
length is never reported, but the first is reported whenever its fitness is
positive and exceeds the fitness at length `2`. -/
theorem claim_C2_local_maxima (text : List Nat) (m j : Nat) (f : ℝ) :
    (j, f) ∈ calculate_fitnesses text m ↔
      1 ≤ j ∧ j + 1 ≤ m ∧ fitnessAt text (j - 1) < fitnessAt text j ∧
        fitnessAt text (j + 1) < fitnessAt text j ∧ f = fitnessAt text j :=
  calculate_fitnesses_mem text m j f

/-- Claim C3.  `count_equals` returns `0` when the key length reaches the
ciphertext length, and otherwise sums, over the offsets `0 … L-1`, the
maximum count of the byte histogram of the positions congruent to that
offset modulo `L`, minus one. -/
theorem claim_C3_count_equals (C : List Nat) (L : Nat) (hL : 1 ≤ L) :
    (C.length ≤ L → count_equals C L = 0) ∧
    (L < C.length → count_equals C L =
      ∑ offset ∈ Finset.range L, (histMax C L offset - 1)) := by
  constructor
  · intro h
    unfold count_equals
    rw [if_pos h]
  · intro h
    unfold count_equals
    rw [if_neg (not_le.2 h), sum_list_range]
    refine Finset.sum_congr rfl ?_
    intro o ho
    rw [maxCount_eq_histMax C hL (Finset.mem_range.1 ho)]

/-- Witness for C3 at the ciphertext `[0, 0, 1]` and key length `1`. -/
theorem claim_C3_witness : count_equals [0, 0, 1] 1 = 1 := by
  have h := (claim_C3_count_equals [0, 0, 1] 1 (by decide)).2 (by decide)
  rw [h]
  decide

/-- Claim C4.  For a key length within the ciphertext (the domain on which
the Python function is defined), `guess_keys` returns exactly the Cartesian
product of the per-offset candidate sets: the number of keys is the product
of the candidate-set sizes, every key has length `key_length`, and an
offset's candidate set holds exactly the bytes of maximal count in that
offset's frequency table, each XORed with the most frequent char (all ties
retained). -/
theorem claim_C4_guess_keys (C : List Nat) (L most_char : Nat) (hL : L ≤ C.length) :
    (guess_keys C L most_char).length =
      ((List.range L).map fun o => (key_possible_bytes_at C L most_char o).length).prod ∧
    (∀ k ∈ guess_keys C L most_char, k.length = L) ∧
    (∀ o b, b ∈ key_possible_bytes_at C L most_char o ↔
      ∃ c ∈ chars_at_offset C L o,
        (∀ c', (chars_at_offset C L o).count c' ≤ (chars_at_offset C L o).count c) ∧
        b = c ^^^ most_char) := by
  refine ⟨?_, ?_, fun o b => mem_key_possible_bytes_at C L most_char o b⟩
  · show (all_keys_from (((List.range L).map
        (key_possible_bytes_at C L most_char)).drop 0) []).length = _
    rw [List.drop_zero, all_keys_from_length, List.map_map]
    rfl
  · intro k hk
    have hgk : guess_keys C L most_char = all_keys_from ((List.range L).map
        (key_possible_bytes_at C L most_char)) [] := by
      unfold guess_keys all_keys
      rw [List.drop_zero]
    rw [hgk] at hk
    have := all_keys_from_mem_length _ [] k hk
    simpa using this

/-- Witness for C4: two offsets, one candidate each, hence exactly one key. -/
theorem claim_C4_witness :
    (guess_keys [0, 1, 0, 1] 2 32).length =
      ((List.range 2).map fun o =>
        (key_possible_bytes_at [0, 1, 0, 1] 2 32 o).length).prod :=
  (claim_C4_guess_keys [0, 1, 0, 1] 2 32 (by decide)).1

/-- Claim C5.  `get_max_fitnessed_key_length` returns `0` on an empty
FitnessTable, and on a nonempty table (witnessed by any entry) it returns a
key length that occurs in the table paired with a fitness that is maximal
among all entries. -/
theorem claim_C5_best_length (text : List Nat) (m : Nat) :
    (calculate_fitnesses text m = [] →
      get_max_fitnessed_key_length (calculate_fitnesses text m) = 0) ∧
    (∀ (j : Nat) (f : ℝ), (j, f) ∈ calculate_fitnesses text m →
      ∃ g, (get_max_fitnessed_key_length (calculate_fitnesses text m), g) ∈
          calculate_fitnesses text m ∧
        ∀ p ∈ calculate_fitnesses text m, p.2 ≤ g) := by
  constructor
  · intro h
    rw [h]
    rfl
  · intro j f hmem
    obtain ⟨q, hq, hmax⟩ := exists_max_entry _ (List.ne_nil_of_mem hmem)
    have hpos : (0 : ℝ) < q.2 := table_pos text m (show (q.1, q.2) ∈ _ from hq)
    obtain ⟨r, hr, hfold, hr2, -⟩ :=
      gml_fold_max (calculate_fitnesses text m) (0, 0) q hq hpos hmax
    have hres : get_max_fitnessed_key_length (calculate_fitnesses text m) = r.1 := by
      unfold get_max_fitnessed_key_length
      rw [hfold]
    refine ⟨q.2, ?_, hmax⟩
    rw [hres, ← hr2]
    exact hr

/-- Witness for C5: on `[0, 0]` with `max_key_length = 2` the table is
`[(1, 1/65)]` and the selected best length is `1`. -/
theorem claim_C5_witness :
    get_max_fitnessed_key_length (calculate_fitnesses [0, 0] 2) = 1 := by
  obtain ⟨g, hg, -⟩ := (claim_C5_best_length [0, 0] 2).2 1 (1 / 65)
    (by rw [calculate_fitnesses_00]; exact List.mem_singleton.2 rfl)
  rw [calculate_fitnesses_00] at hg ⊢
  rw [List.mem_singleton, Prod.mk.injEq] at hg
  exact hg.1

/-- Claim C6.  Every fitness value stored by the estimator for a candidate
length `L` equals `count_equals(text, L) / (64 + sqrt L)`, in exact real
arithmetic. -/
theorem claim_C6_normalization (text : List Nat) (m L : Nat) (f : ℝ)
    (h : (L, f) ∈ calculate_fitnesses text m) :
    f = (count_equals text L : ℝ) / (64 + Real.sqrt L) := by
  have hmem := (calculate_fitnesses_mem text m L f).1 h
  rw [hmem.2.2.2.2, fitnessAt, Real.sqrt_eq_rpow]

/-- Witness for C6 at the table entry `(1, 1/65)` of the ciphertext `[0, 0]`. -/
theorem claim_C6_witness :
    (1 : ℝ) / 65 = (count_equals [0, 0] 1 : ℝ) / (64 + Real.sqrt ((1 : Nat) : ℝ)) :=
  claim_C6_normalization [0, 0] 2 1 (1 / 65)
    (by rw [calculate_fitnesses_00]; exact List.mem_singleton.2 rfl)

/-- Claim C7.  For `1 ≤ L` and `offset < L` the counts of the offset
frequency table sum to `⌈(len(C) - offset) / L⌉` (exact rational
arithmetic), and summed over all offsets these totals give `len(C)`. -/
theorem claim_C7_histogram_totals (C : List Nat) (L offset : Nat)
    (hL : 1 ≤ L) (ho : offset < L) :
    ((∑ c ∈ (chars_at_offset C L offset).toFinset,
        (chars_at_offset C L offset).count c : Nat) : ℤ) =
      Int.ceil (((C.length : ℚ) - offset) / L) ∧
    ∑ o ∈ Finset.range L, ∑ c ∈ (chars_at_offset C L o).toFinset,
        (chars_at_offset C L o).count c = C.length := by
  constructor
  · rw [sum_count_toFinset]
    have hlen : (chars_at_offset C L offset).length
        = (offsetPositions C.length L offset).length := by
      rw [chars_at_offset, List.length_map]
    rw [hlen]
    exact length_offsetPositions_ceil C.length L offset hL ho
  · rw [Finset.sum_congr rfl fun o _ => sum_count_toFinset (chars_at_offset C L o)]
    exact sum_length_chars_at_offset C L hL

/-- Witness for C7 at `C = [0, 1, 2]`, `L = 2`, `offset = 0`. -/
theorem claim_C7_witness :
    ((∑ c ∈ (chars_at_offset [0, 1, 2] 2 0).toFinset,
        (chars_at_offset [0, 1, 2] 2 0).count c : Nat) : ℤ) =
      Int.ceil (((([0, 1, 2] : List Nat).length : ℚ) - (0 : Nat)) / (2 : Nat)) :=
  (claim_C7_histogram_totals [0, 1, 2] 2 0 (by decide) (by decide)).1

/-- Claim C8.  `guess_probable_keys` fails with the fatal message exactly
when no most frequent char is supplied; when one is supplied it returns the
keys of `guess_keys` without raising that error. -/
theorem claim_C8_missing_char (text : List Nat) (L : Nat) (mfc : Option Nat) :
    (guess_probable_keys text L mfc =
        Except.error "Most possible char is needed to guess the key!" ↔ mfc = none) ∧
    (∀ c, mfc = some c →
      guess_probable_keys text L mfc = Except.ok (guess_keys text L c)) := by
  cases mfc <;> simp [guess_probable_keys]

/-- Witness for C8 with the most frequent char `32` supplied. -/
theorem claim_C8_witness :
    guess_probable_keys [0, 1] 1 (some 32) = Except.ok (guess_keys [0, 1] 1 32) :=
  (claim_C8_missing_char [0, 1] 1 (some 32)).2 32 rfl

/-- Claim C9.  The guard of `count_equals` returns `0` as soon as
`key_length ≥ len(text)`; past the guard every residue class visited is
nonempty (`offset < key_length < len(text)`), so the histogram maximum is
never taken over an empty histogram. -/
theorem claim_C9_total (C : List Nat) (L offset : Nat) (hL : 1 ≤ L) :
    (C.length ≤ L → count_equals C L = 0) ∧
    (L < C.length → offset < L → chars_at_offset C L offset ≠ []) := by
  constructor
  · intro h
    unfold count_equals
    rw [if_pos h]
  · intro hlen ho hnil
    have hlen2 := length_chars_at_offset C L offset
    rw [hnil, List.length_nil] at hlen2
    have hmul : 1 * L ≤ C.length - offset + L - 1 := by omega
    have h1 : 1 ≤ (C.length - offset + L - 1) / L := (Nat.le_div_iff_mul_le hL).2 hmul
    omega

/-- Witness for C9: the degenerate guard at `C = [0, 1, 2]`, `L = 3`. -/
theorem claim_C9_witness : count_equals [0, 1, 2] 3 = 0 :=
  (claim_C9_total [0, 1, 2] 3 0 (by decide)).1 (by decide)

/-- Claim C10.  `get_max_fitnessed_key_length` returns `0` whenever every
fitness is `≤ 0`; on a table sorted by key length (as every FitnessTable
produced by `calculate_fitnesses` is — third conjunct) any entry of maximal
positive fitness bounds the result from above, so among tying entries the
smallest key length is returned, and the result occurs in the table with
that maximal fitness. -/
theorem claim_C10_tie_breaking (l : List (Nat × ℝ)) (text : List Nat) (m : Nat) :
    ((∀ p ∈ l, p.2 ≤ 0) → get_max_fitnessed_key_length l = 0) ∧
    ((l.Pairwise fun a b => a.1 < b.1) → ∀ q ∈ l, 0 < q.2 → (∀ p ∈ l, p.2 ≤ q.2) →
      (get_max_fitnessed_key_length l, q.2) ∈ l ∧
        get_max_fitnessed_key_length l ≤ q.1) ∧
    (calculate_fitnesses text m).Pairwise fun a b => a.1 < b.1 := by
  refine ⟨?_, ?_, table_pairwise text m⟩
  · intro h
    unfold get_max_fitnessed_key_length
    rw [gml_fold_keep l (0, 0) h]
  · intro hpw q hq hpos hmax
    obtain ⟨r, hr, hfold, hr2, hties⟩ := gml_fold_max l (0, 0) q hq hpos hmax
    have hres : get_max_fitnessed_key_length l = r.1 := by
      unfold get_max_fitnessed_key_length
      rw [hfold]
    constructor
    · rw [hres, ← hr2]
      exact hr
    · rw [hres]
      exact hties hpw q hq rfl

/-- Witness for C10 on the tied, sorted table `[(2, 1), (3, 1)]`: the
returned length is the smaller tying length `2`. -/
theorem claim_C10_witness :
    (get_max_fitnessed_key_length [((2 : Nat), (1 : ℝ)), (3, 1)], (1 : ℝ)) ∈
        [((2 : Nat), (1 : ℝ)), (3, 1)] ∧
      get_max_fitnessed_key_length [((2 : Nat), (1 : ℝ)), (3, 1)] ≤ 2 :=
  (claim_C10_tie_breaking [((2 : Nat), (1 : ℝ)), (3, 1)] [] 0).2.1
    (by norm_num [List.pairwise_cons])
    ((2 : Nat), (1 : ℝ)) (by simp) (by norm_num)
    (by
      intro p hp
      simp only [List.mem_cons, List.mem_singleton] at hp
      rcases hp with rfl | rfl | h
      · norm_num
      · norm_num
      · cases h)

end Xortool
